import Mathlib

/-!
# Verification of the serveradmin-go-client core

Shallow embedding of the repository's change-tracking engine
(`adminapi/server_object.go`), batch commit (`adminapi/commit.go`),
query accessors (`query.go`), multi-valued attribute helper
(`adminapi/multiattr.go`), filter constructors (`adminapi/filters.go`)
and the filter-expression entry points (`FromQuery`), together with
theorems settling the frozen claims about them.

Go's dynamically typed attribute values (`any` holding JSON-decoded
data) are modelled by the tagged union `Value`; Go `float64` is carried
as an exact rational (every claim only exercises values that are exact
in binary, and the equality kernel of the model serialization agrees
with `encoding/json` on them).  Go maps are modelled as association
lists with unique keys; the one place where Go's *unspecified map
iteration order* is observable (`sliceDiff` ranging over its two
key-sets) is modelled by quantifying over all permutations of the
canonically built key-set snapshots.
-/

set_option maxHeartbeats 1000000

namespace adminapi

/-- Tagged union for the JSON-like values held in a `ServerObject`'s
attribute map (Go `any`: nil, bool, int, float64, string, slices). -/
inductive Value where
  | null : Value
  | bool (b : Bool) : Value
  | int (n : Int) : Value
  | float (q : ℚ) : Value
  | str (s : String) : Value
  | list (xs : List Value) : Value

mutual

/-- Structural equality test for `Value` (Go `==` / `reflect.DeepEqual`
is never used by the code on values; this only backs decidability). -/
def valueEq : Value → Value → Bool
  | .null, .null => true
  | .bool a, .bool b => a == b
  | .int a, .int b => a == b
  | .float a, .float b => a == b
  | .str a, .str b => a == b
  | .list xs, .list ys => valueListEq xs ys
  | _, _ => false

def valueListEq : List Value → List Value → Bool
  | [], [] => true
  | x :: xs, y :: ys => valueEq x y && valueListEq xs ys
  | _, _ => false

end

mutual

theorem valueEq_iff : ∀ a b : Value, valueEq a b = true ↔ a = b
  | .null, .null => by simp [valueEq]
  | .bool a, .bool b => by simp [valueEq]
  | .int a, .int b => by simp [valueEq]
  | .float a, .float b => by simp [valueEq]
  | .str a, .str b => by simp [valueEq]
  | .list xs, .list ys => by
    simp only [valueEq, valueListEq_iff xs ys, Value.list.injEq]
  | .null, .bool _ | .null, .int _ | .null, .float _ | .null, .str _ | .null, .list _
  | .bool _, .null | .bool _, .int _ | .bool _, .float _ | .bool _, .str _ | .bool _, .list _
  | .int _, .null | .int _, .bool _ | .int _, .float _ | .int _, .str _ | .int _, .list _
  | .float _, .null | .float _, .bool _ | .float _, .int _ | .float _, .str _ | .float _, .list _
  | .str _, .null | .str _, .bool _ | .str _, .int _ | .str _, .float _ | .str _, .list _
  | .list _, .null | .list _, .bool _ | .list _, .int _ | .list _, .float _ | .list _, .str _ => by
    simp [valueEq]

theorem valueListEq_iff : ∀ xs ys : List Value, valueListEq xs ys = true ↔ xs = ys
  | [], [] => by simp [valueListEq]
  | x :: xs, y :: ys => by
    simp only [valueListEq, Bool.and_eq_true, valueEq_iff x y, valueListEq_iff xs ys,
      List.cons.injEq]
  | [], _ :: _ => by simp [valueListEq]
  | _ :: _, [] => by simp [valueListEq]

end

instance : DecidableEq Value := fun a b =>
  decidable_of_iff (valueEq a b = true) (valueEq_iff a b)

/-- Go `int(f)` on a `float64`: truncation toward zero. -/
def truncQ (q : ℚ) : Int :=
  if 0 ≤ q.num then Int.ofNat (q.num.toNat / q.den) else - Int.ofNat ((- q.num).toNat / q.den)

/-- JSON string escaping (quote and backslash; enough to keep the
serialization unambiguous, as `encoding/json` output is). -/
def escapeJ (s : String) : String :=
  s.data.foldl (fun acc c =>
    if c = '\"' then acc ++ "\\\"" else if c = '\\' then acc ++ "\\\\"
    else acc.push c) ""

mutual

/-- Model of `json.Marshal` restricted to the modelled value fragment.
Mirrors the equality kernel of Go's encoding: an integral `float64` and
the equal `int` serialize identically (Go renders both as the bare
integer), distinct values serialize distinctly. -/
def jsonMarshal : Value → String
  | .null => "null"
  | .bool true => "true"
  | .bool false => "false"
  | .int n => toString n
  | .float q => if q.den = 1 then toString q.num else toString q.num ++ "/" ++ toString q.den
  | .str s => "\"" ++ escapeJ s ++ "\""
  | .list xs => "[" ++ jsonMarshalList xs ++ "]"

def jsonMarshalList : List Value → String
  | [] => ""
  | [x] => jsonMarshal x
  | x :: xs => jsonMarshal x ++ "," ++ jsonMarshalList xs

end

/-- `jsonEqual` from `server_object.go`: compares the `json.Marshal`
serializations as strings. -/
def jsonEqual (a b : Value) : Bool :=
  jsonMarshal a == jsonMarshal b

/-- `toAnySlice` from `server_object.go`: any slice value yields its
elements, every non-slice value (including nil) yields Go `nil`,
modelled as `none`.  In the model all Go slice types ([]any, []string,
[]int, ...) are already a single `Value.list`. -/
def toAnySlice : Value → Option (List Value)
  | .list xs => some xs
  | _ => none

/-! ## Association lists standing in for Go maps

Go map reads `m[k]` / `v, ok := m[k]` are `lookupL`; writes `m[k] = v`
are `insertL` (replace in place when the key is present, append
otherwise — Go maps are unordered, so any consistent placement is a
faithful model; claims never depend on attribute-map iteration order,
and the one order-sensitive map range, inside `sliceDiff`, is treated
by quantifying over permutations). -/

def lookupL {α : Type} : List (String × α) → String → Option α
  | [], _ => none
  | (k', v) :: rest, k => if k' = k then some v else lookupL rest k

def insertL {α : Type} : List (String × α) → String → α → List (String × α)
  | [], k, v => [(k, v)]
  | (k', v') :: rest, k, v =>
    if k' = k then (k', v) :: rest else (k', v') :: insertL rest k v

/-- `Attributes` (`query.go`): a map from attribute name to value. -/
abbrev Attributes : Type := List (String × Value)

/-- Reading a possibly-absent map entry into a Go `any`: a missing key
yields the zero value `nil` (`Value.null`). -/
def valueOrNull : Option Value → Value
  | some v => v
  | none => .null

/-! ## ServerObject (`server_object.go`) -/

/-- `ServerObject`: attribute map, prior-value map, deletion marker. -/
structure ServerObject where
  attributes : Attributes
  oldValues : Attributes
  deleted : Bool
  deriving DecidableEq

/-- `CommitState` constants from `server_object.go`. -/
inductive CommitState where
  | created
  | deleted
  | changed
  | consistent
  deriving DecidableEq

/-- `Get`: retrieves an attribute; a `float64` value is converted with
Go's `int(floatVal)` (truncation); a missing attribute yields nil. -/
def ServerObject.Get (s : ServerObject) (attr : String) : Value :=
  match lookupL s.attributes attr with
  | some v =>
    match v with
    | .float q => .int (truncQ q)
    | _ => v
  | none => .null

/-- `GetString`: the attribute as a string, `""` for non-strings. -/
def ServerObject.GetString (s : ServerObject) (attr : String) : String :=
  match s.Get attr with
  | .str v => v
  | _ => ""

/-- `ObjectID`: the `"object_id"` attribute as an int, `0` otherwise. -/
def ServerObject.ObjectID (s : ServerObject) : Int :=
  match s.Get "object_id" with
  | .int id => id
  | _ => 0

/-- Errors raised by the modelled operations. -/
inductive SAError where
  /-- `ErrUnknownAttribute` wrapped with the attribute name by `Set`. -/
  | unknownAttribute (key : String)
  deriving DecidableEq

/-- `Set`: fails if the attribute does not exist; captures the prior
value on the first write to a field since the last settle point (a
slice prior value is deep-copied in Go to prevent aliasing — in this
pure model the copy is the value itself); then overwrites. -/
def ServerObject.Set (s : ServerObject) (key : String) (value : Value) :
    Except SAError ServerObject :=
  match lookupL s.attributes key with
  | none => .error (.unknownAttribute key)
  | some old =>
    let s' :=
      if (lookupL s.oldValues key).isSome then s
      else { s with oldValues := insertL s.oldValues key old }
    .ok { s' with attributes := insertL s'.attributes key value }

/-- `Delete`: marks the object for deletion on the next commit. -/
def ServerObject.Delete (s : ServerObject) : ServerObject :=
  { s with deleted := true }

/-- Restores every captured prior value into an attribute map (the
`for key, oldVal := range s.oldValues` loop of `Rollback`). -/
def restoreAll (m : Attributes) (ov : Attributes) : Attributes :=
  ov.foldl (fun acc kv => insertL acc kv.1 kv.2) m

/-- `Rollback`: clears the deletion marker, restores all captured
prior values, clears the prior-value map. -/
def ServerObject.Rollback (s : ServerObject) : ServerObject :=
  { attributes := restoreAll s.attributes s.oldValues
    oldValues := []
    deleted := false }

/-- The Go test `s.attributes["object_id"] == nil`: true when the key
is missing (zero value nil) or holds nil. -/
def objectIdIsNil (s : ServerObject) : Bool :=
  match lookupL s.attributes "object_id" with
  | none => true
  | some .null => true
  | some _ => false

/-- `CommitState()`: created / deleted / changed / consistent, in that
priority order. -/
def ServerObject.CommitState (s : ServerObject) : CommitState :=
  if objectIdIsNil s then .created
  else if s.deleted then .deleted
  else if s.oldValues.any
      (fun kv => !(jsonEqual kv.2 (valueOrNull (lookupL s.attributes kv.1)))) then
    .changed
  else .consistent

/-! ## sliceDiff (`server_object.go`)

`sliceDiff` builds two Go maps keyed by the `json.Marshal` string of
each element (`oldSet`, `curSet`; a later duplicate key overwrites the
stored representative) and then **ranges over the maps** to collect the
additions and removals.  Go's map range order is unspecified, so the
model splits the function: `buildKeySet` is the (deterministic)
insertion of the elements into the map, and `sliceDiffOn` consumes the
two map snapshots *in whatever order they are ranged* — the claims
quantify over all permutations of the snapshots. -/

/-- The `oldSet`/`curSet` construction: insert each element keyed by
its serialization; a duplicate key overwrites the stored value. -/
def buildKeySet (xs : List Value) : List (String × Value) :=
  xs.foldl (fun m v => insertL m (jsonMarshal v) v) []

/-- The two collection loops of `sliceDiff`, applied to the ranged
snapshots of `curSet` and `oldSet`.  `add` and `remove` start as empty
(non-nil) slices and are appended to in range order. -/
def sliceDiffOn (oldS curS : List (String × Value)) : List Value × List Value :=
  ((curS.filter (fun kv => (lookupL oldS kv.1).isNone)).map Prod.snd,
   (oldS.filter (fun kv => (lookupL curS kv.1).isNone)).map Prod.snd)

/-- `sliceDiff` at the canonical (insertion-order) range of the two
snapshots; any actual Go execution produces a permutation of this. -/
def sliceDiff (old cur : List Value) : List Value × List Value :=
  sliceDiffOn (buildKeySet old) (buildKeySet cur)

/-! ## serializeChanges / confirmChanges -/

/-- One entry of the change delta: `{action: "update", old, new}` or
`{action: "multi", add, remove}`. -/
inductive ChangeAction where
  | update (old new : Value)
  | multi (add remove : List Value)
  deriving DecidableEq

/-- The change delta built by `serializeChanges`: the object id plus
one action per genuinely changed field. -/
structure ChangeSet where
  objectId : Int
  entries : List (String × ChangeAction)
  deriving DecidableEq

/-- `serializeChanges`: for each tracked field whose current value
differs from the captured one under `jsonEqual`, report a `multi`
add/remove pair when both values are slices, an `update` old/new pair
otherwise; `jsonEqual` fields are skipped. -/
def ServerObject.serializeChanges (s : ServerObject) : ChangeSet :=
  { objectId := s.ObjectID
    entries := s.oldValues.filterMap (fun kv =>
      let newVal := valueOrNull (lookupL s.attributes kv.1)
      if jsonEqual kv.2 newVal then none
      else
        match toAnySlice kv.2, toAnySlice newVal with
        | some olds, some news =>
          let d := sliceDiff olds news
          some (kv.1, ChangeAction.multi d.1 d.2)
        | _, _ => some (kv.1, ChangeAction.update kv.2 newVal)) }

/-- `confirmChanges`: clears the prior-value map; if the object was
marked deleted, nulls `object_id` and clears the marker. -/
def ServerObject.confirmChanges (s : ServerObject) : ServerObject :=
  if s.deleted then
    { attributes := insertL s.attributes "object_id" .null
      oldValues := []
      deleted := false }
  else { s with oldValues := [] }

/-! ## MultiAttr (`multiattr.go`) -/

/-- `MultiAttr`: a string slice with set-like helper operations. -/
abbrev MultiAttr : Type := List String

/-- `Contains`: linear scan for the element. -/
def MultiAttr.Contains : MultiAttr → String → Bool
  | [], _ => false
  | v :: rest, elem => if v = elem then true else MultiAttr.Contains rest elem

/-- One iteration of `Add`'s loop body: append unless contained. -/
def MultiAttr.addOne (m : MultiAttr) (elem : String) : MultiAttr :=
  if m.Contains elem then m else m ++ [elem]

/-- `Add(elems...)`: appends each element in turn unless it is already
contained (set semantics). -/
def MultiAttr.Add (m : MultiAttr) (elems : List String) : MultiAttr :=
  elems.foldl MultiAttr.addOne m

/-! ## Commit (`commit.go`)

The network transport (`sendRequest`) is an excluded collaborator; its
observable outcome for the one commit round trip is modelled by
`TransportOutcome`.  `sendCommit`'s own logic (decode, status check) is
`sendCommit` below; `ServerObjects.Commit` is `CommitRun`, which also
records every wire request assembled and submitted. -/

/-- `commitRequest`: the payload of `/api/dataset/commit`; the three
partitions default to empty (not absent) slices. -/
structure commitRequest where
  created : List Attributes
  changed : List ChangeSet
  deleted : List Value
  deriving DecidableEq

/-- Outcome of the single transport round trip made by `sendCommit`:
the HTTP call fails, the response body fails to decode, or a
`commitResponse{status, commit_id, message}` is decoded. -/
inductive TransportOutcome where
  | transportErr (msg : String)
  | decodeErr
  | response (status : String) (commitId : Int) (message : String)
  deriving DecidableEq

/-- `sendCommit` (`commit.go`): propagates a transport failure, fails
on an undecodable body, fails with the server message when the decoded
status is `"error"`, and otherwise returns the commit id. -/
def sendCommit : TransportOutcome → Except String Int
  | .transportErr msg => .error msg
  | .decodeErr => .error "failed to decode commit response"
  | .response status commitId message =>
    if status = "error" then .error ("commit failed: " ++ message)
    else .ok commitId

/-- `buildCommit`: partitions the collection by `CommitState()`:
created objects contribute their attributes, changed ones their
serialized delta, deleted ones their object id. -/
def buildCommit (objects : List ServerObject) : commitRequest :=
  objects.foldl (fun commit obj =>
    match obj.CommitState with
    | .created => { commit with created := commit.created ++ [obj.attributes] }
    | .changed => { commit with changed := commit.changed ++ [obj.serializeChanges] }
    | .deleted => { commit with deleted := commit.deleted ++ [obj.Get "object_id"] }
    | .consistent => commit)
    { created := [], changed := [], deleted := [] }

/-- Everything observable about one `ServerObjects.Commit()` call: the
wire requests submitted, the returned value or error, and the member
states afterwards. -/
structure CommitRun where
  sentRequests : List commitRequest
  result : Except String Int
  finalObjects : List ServerObject

/-- `ServerObjects.Commit()`: assembles `buildCommit`, submits it as
one call, and only on success runs `confirmChanges()` on every member;
on failure the error is returned with every member untouched. -/
def ServerObjectsCommit (objects : List ServerObject)
    (transport : commitRequest → TransportOutcome) : CommitRun :=
  let commit := buildCommit objects
  match sendCommit (transport commit) with
  | .error e => { sentRequests := [commit], result := .error e, finalObjects := objects }
  | .ok commitID =>
    { sentRequests := [commit]
      result := .ok commitID
      finalObjects := objects.map ServerObject.confirmChanges }

/-! ## Query accessors (`query.go`) -/

/-- The error outcomes of `One()`: the sentinel `ErrNoResults`, or an
error wrapping the sentinel `ErrMultipleResults` and carrying the
actual count (`fmt.Errorf("got %d: %w", len, ErrMultipleResults)`). -/
inductive OneError where
  | noResults
  | multipleResults (count : Nat)
  deriving DecidableEq

/-- `One()` after a successful load, switching on the number of loaded
objects. -/
def One (serverObjects : List ServerObject) : Except OneError ServerObject :=
  match serverObjects with
  | [obj] => .ok obj
  | [] => .error .noResults
  | objs => .error (.multipleResults objs.length)

/-! ## Filter model (`filters.go`)

A `Filter` is a single-entry mapping from an operation name to its
operand; operands are scalars, lists, nested filters, or Go `nil`. -/

/-- Operand / filter values (`Filters`' and `Filter`'s `any`). -/
inductive FilterVal where
  | nullv : FilterVal
  | str (s : String) : FilterVal
  | int (n : Int) : FilterVal
  | bool (b : Bool) : FilterVal
  | filter (name : String) (arg : FilterVal) : FilterVal
  | listv (xs : List FilterVal) : FilterVal

mutual

def filterValEq : FilterVal → FilterVal → Bool
  | .nullv, .nullv => true
  | .str a, .str b => a == b
  | .int a, .int b => a == b
  | .bool a, .bool b => a == b
  | .filter n a, .filter n' a' => n == n' && filterValEq a a'
  | .listv xs, .listv ys => filterValListEq xs ys
  | _, _ => false

def filterValListEq : List FilterVal → List FilterVal → Bool
  | [], [] => true
  | x :: xs, y :: ys => filterValEq x y && filterValListEq xs ys
  | _, _ => false

end

mutual

theorem filterValEq_iff : ∀ a b : FilterVal, filterValEq a b = true ↔ a = b
  | .nullv, .nullv => by simp [filterValEq]
  | .str a, .str b => by simp [filterValEq]
  | .int a, .int b => by simp [filterValEq]
  | .bool a, .bool b => by simp [filterValEq]
  | .filter n a, .filter n' a' => by
    simp only [filterValEq, Bool.and_eq_true, beq_iff_eq, filterValEq_iff a a',
      FilterVal.filter.injEq]
  | .listv xs, .listv ys => by
    simp only [filterValEq, filterValListEq_iff xs ys, FilterVal.listv.injEq]
  | .nullv, .str _ | .nullv, .int _ | .nullv, .bool _ | .nullv, .filter _ _
  | .nullv, .listv _
  | .str _, .nullv | .str _, .int _ | .str _, .bool _ | .str _, .filter _ _
  | .str _, .listv _
  | .int _, .nullv | .int _, .str _ | .int _, .bool _ | .int _, .filter _ _
  | .int _, .listv _
  | .bool _, .nullv | .bool _, .str _ | .bool _, .int _ | .bool _, .filter _ _
  | .bool _, .listv _
  | .filter _ _, .nullv | .filter _ _, .str _ | .filter _ _, .int _
  | .filter _ _, .bool _ | .filter _ _, .listv _
  | .listv _, .nullv | .listv _, .str _ | .listv _, .int _ | .listv _, .bool _
  | .listv _, .filter _ _ => by simp [filterValEq]

theorem filterValListEq_iff : ∀ xs ys : List FilterVal, filterValListEq xs ys = true ↔ xs = ys
  | [], [] => by simp [filterValListEq]
  | x :: xs, y :: ys => by
    simp only [filterValListEq, Bool.and_eq_true, filterValEq_iff x y,
      filterValListEq_iff xs ys, List.cons.injEq]
  | [], _ :: _ => by simp [filterValListEq]
  | _ :: _, [] => by simp [filterValListEq]

end

instance : DecidableEq FilterVal := fun a b =>
  decidable_of_iff (filterValEq a b = true) (filterValEq_iff a b)

/-- `Filters`: mapping from field name to raw value or filter. -/
abbrev Filters : Type := List (String × FilterVal)

/-- `createFilter`: a filter is a single-key operation mapping. -/
def createFilter (filterType : String) (value : FilterVal) : FilterVal :=
  .filter filterType value

/-- `Empty()` from `filters.go`: `createFilter("Empty", nil)`.  (Named
`EmptyF` here because `Empty` is taken by the logic library.) -/
def EmptyF : FilterVal :=
  createFilter "Empty" .nullv

/-- `Not(filter)` from `filters.go`.  (Named `NotF` here because `Not`
is the logic library's negation.) -/
def NotF (filter : FilterVal) : FilterVal :=
  createFilter "Not" filter

/-- `NotEmpty()`: shortcut for `Not(Empty())`. -/
def NotEmpty : FilterVal :=
  NotF EmptyF

/-- `allFilters` from `filters.go`: recognized operation names with
lowercased key. -/
def allFilters : List (String × String) :=
  [("any", "Any"), ("all", "All"), ("containedby", "ContainedBy"),
   ("containedonlyby", "ContainedOnlyBy"), ("contains", "Contains"),
   ("empty", "Empty"), ("greaterthan", "GreaterThan"),
   ("greaterthanorequals", "GreaterThanOrEquals"), ("lessthan", "LessThan"),
   ("lessthanorequals", "LessThanOrEquals"), ("not", "Not"),
   ("overlaps", "Overlaps"), ("regexp", "Regexp"), ("startswith", "StartsWith")]

/-! ## Query and the query-string front end

`ParseQuery`'s implementation is not part of the provided sources (only
its callers `FromQuery` and its tests are), so it is modelled from the
spec, §4.1, and pinned to the behaviour the repository's own tests
assert (`TestFromQuery`, `TestFromQueryWithError`). -/

/-- `Query` (`query.go`): filters, projection, ordering, and the
lazy-loaded result cache. -/
structure Query where
  filters : Filters
  restrictedAttributes : List String
  orderBy : String
  loaded : Bool
  serverObjects : List ServerObject
  deriving DecidableEq

/-- The zero value `Query{}` returned alongside any parse error. -/
def Query.zero : Query :=
  { filters := [], restrictedAttributes := [], orderBy := "", loaded := false
    serverObjects := [] }

/-- `NewQuery`: a fresh query with the default projection. -/
def NewQuery (filters : Filters) : Query :=
  { filters := filters
    restrictedAttributes := ["object_id", "hostname"]
    orderBy := ""
    loaded := false
    serverObjects := [] }

/-- Modelled from the spec: the parenthesis-depth counter of the
missing `ParseQuery` source.  Fails the moment a closing parenthesis
without a matching open appears, or at end-of-input with open depth
(test: the error message contains `unmatched ( found`). -/
def checkParens : List Char → Nat → Except String Unit
  | [], 0 => .ok ()
  | [], _ + 1 => .error "unmatched ( found"
  | c :: rest, depth =>
    if c = '(' then checkParens rest (depth + 1)
    else if c = ')' then
      match depth with
      | 0 => .error "unmatched ) found"
      | depth' + 1 => checkParens rest depth'
    else checkParens rest depth

/-- Modelled from the spec: split on a separator character at
parenthesis depth 0 (whitespace outside parenthesized tokens is the
sole term separator; commas split argument lists the same way). -/
def splitDepth (sep : Char) : List Char → Nat → List Char → List (List Char)
  | [], _, acc => [acc.reverse]
  | c :: rest, depth, acc =>
    if c = '(' then splitDepth sep rest (depth + 1) (c :: acc)
    else if c = ')' then splitDepth sep rest (depth - 1) (c :: acc)
    else if c = sep ∧ depth = 0 then acc.reverse :: splitDepth sep rest 0 []
    else splitDepth sep rest depth (c :: acc)

/-- Modelled from the spec: a bare literal denotes implicit equality;
strings are kept as strings, decimal integers and booleans are typed. -/
def parseLiteral (cs : List Char) : FilterVal :=
  let s := String.mk cs
  if s = "true" then .bool true
  else if s = "false" then .bool false
  else if cs ≠ [] ∧ cs.all Char.isDigit then .int (String.toNat! s)
  else .str s

/-- Modelled from the spec: case-insensitive match of a call name
against the fixed registry; an unrecognized name is preserved as an
opaque operation tag. -/
def canonName (name : String) : String :=
  match lookupL allFilters (String.mk (name.data.map Char.toLower)) with
  | some canonical => canonical
  | none => name

/-- Modelled from the spec: the recursive expression grammar of the
missing `ParseQuery` source.  A call form `name(arg1, arg2, ...)`
yields a single-entry filter; a zero-argument call carries an empty
list operand (`TestFromQuery`: `empty()` parses to `Empty: []`, not
`Empty: nil`), a single argument is carried directly, several are
carried as a list.  Structural defects surface as errors.  The fuel is
the input length, which bounds the nesting depth. -/
def parseExpr : Nat → List Char → Except String FilterVal
  | 0, _ => .error "unmatched ( found"
  | fuel + 1, cs =>
    if cs.contains '(' then
      let name := cs.takeWhile (fun c => c ≠ '(')
      let rest := cs.drop (name.length + 1)
      match rest.getLast? with
      | some ')' =>
        let inner := rest.dropLast
        if inner = [] then
          .ok (createFilter (canonName (String.mk name)) (.listv []))
        else do
          let args ← (splitDepth ',' inner 0 []).mapM (parseExpr fuel)
          match args with
          | [arg] => .ok (createFilter (canonName (String.mk name)) arg)
          | _ => .ok (createFilter (canonName (String.mk name)) (.listv args))
      | _ => .error "unmatched ( found"
    else .ok (parseLiteral cs)

/-- Modelled from the spec: one `field=expression` term. -/
def parseTerm (fs : Filters) (t : List Char) : Except String Filters := do
  let fld := t.takeWhile (fun c => c ≠ '=')
  let rest := t.drop (fld.length + 1)
  if fld = [] then .error "empty field name"
  else do
    let v ← parseExpr (rest.length + 1) rest
    .ok (insertL fs (String.mk fld) v)

/-- Modelled from the spec: `ParseQuery` — fail fast on unbalanced
parentheses, then fold the space-separated terms into a filter set
(last one wins on duplicate field names). -/
def ParseQuery (query : String) : Except String Filters := do
  checkParens query.data 0
  let terms := (splitDepth ' ' query.data 0 []).filter (fun t => t ≠ [])
  terms.foldlM parseTerm []

/-- `FromQuery` (`query.go`): parse the query string into a `Query`; on
a parse error return the zero-value `Query{}` together with the error
wrapped as `parsing query %s: %w`. -/
def FromQuery (query : String) : Query × Option String :=
  match ParseQuery query with
  | .error e => (Query.zero, some ("parsing query " ++ query ++ ": " ++ e))
  | .ok filters => (NewQuery filters, none)

instance {ε α : Type} [DecidableEq ε] [DecidableEq α] : DecidableEq (Except ε α) := by
  intro a b
  cases a <;> cases b
  case error.error e e' => exact decidable_of_iff (e = e') (by simp)
  case ok.ok v v' => exact decidable_of_iff (v = v') (by simp)
  all_goals exact isFalse (by intro h; cases h)

/-! ## Association-list lemmas -/

theorem lookupL_insertL_self {α : Type} (m : List (String × α)) (k : String) (v : α) :
    lookupL (insertL m k v) k = some v := by
  induction m with
  | nil => simp [insertL, lookupL]
  | cons kv rest ih =>
    obtain ⟨k', v'⟩ := kv
    by_cases h : k' = k <;> simp [insertL, lookupL, h, ih]

theorem lookupL_insertL_ne {α : Type} (m : List (String × α)) (k k' : String) (v : α)
    (h : k ≠ k') : lookupL (insertL m k v) k' = lookupL m k' := by
  induction m with
  | nil => simp [insertL, lookupL, h]
  | cons kv rest ih =>
    obtain ⟨k₀, v₀⟩ := kv
    by_cases h₀ : k₀ = k
    · subst h₀
      simp [insertL, lookupL, h]
    · simp only [insertL, if_neg h₀]
      by_cases h₁ : k₀ = k' <;> simp [lookupL, h₁, ih]

theorem lookupL_eq_none_iff {α : Type} (m : List (String × α)) (k : String) :
    lookupL m k = none ↔ k ∉ m.map Prod.fst := by
  induction m with
  | nil => simp [lookupL]
  | cons kv rest ih =>
    obtain ⟨k', v⟩ := kv
    by_cases h : k' = k
    · subst h
      simp [lookupL]
    · simp only [lookupL, if_neg h, List.map_cons, List.mem_cons, not_or, ih]
      exact ⟨fun hn => ⟨fun he => h he.symm, hn⟩, fun hn => hn.2⟩

theorem lookupL_isSome_iff {α : Type} (m : List (String × α)) (k : String) :
    (lookupL m k).isSome = true ↔ k ∈ m.map Prod.fst := by
  rw [Option.isSome_iff_ne_none, ne_eq, lookupL_eq_none_iff, not_not]

theorem insertL_self_of_lookup {α : Type} (m : List (String × α)) (k : String) (v : α)
    (h : lookupL m k = some v) : insertL m k v = m := by
  induction m with
  | nil => simp [lookupL] at h
  | cons kv rest ih =>
    obtain ⟨k', v'⟩ := kv
    by_cases hk : k' = k
    · subst hk
      simp [lookupL] at h
      simp [insertL, h]
    · simp only [lookupL, if_neg hk] at h
      simp [insertL, hk, ih h]

theorem insertL_insertL_same {α : Type} (m : List (String × α)) (k : String) (v v' : α) :
    insertL (insertL m k v) k v' = insertL m k v' := by
  induction m with
  | nil => simp [insertL]
  | cons kv rest ih =>
    obtain ⟨k₀, v₀⟩ := kv
    by_cases h : k₀ = k <;> simp [insertL, h, ih]

theorem insertL_append_of_not_mem {α : Type} (m : List (String × α)) (k : String) (v : α)
    (h : k ∉ m.map Prod.fst) : insertL m k v = m ++ [(k, v)] := by
  induction m with
  | nil => simp [insertL]
  | cons kv rest ih =>
    obtain ⟨k', v'⟩ := kv
    simp only [List.map_cons, List.mem_cons, not_or] at h
    have h1 : k' ≠ k := fun he => h.1 he.symm
    simp [insertL, h1, ih h.2]

theorem mem_keys_insertL {α : Type} (m : List (String × α)) (k k' : String) (v : α)
    (h : k' ∈ m.map Prod.fst) : k' ∈ (insertL m k v).map Prod.fst := by
  induction m with
  | nil => simp at h
  | cons kv rest ih =>
    obtain ⟨k₀, v₀⟩ := kv
    by_cases hk : k₀ = k
    · simpa [insertL, hk] using h
    · simp only [List.map_cons, List.mem_cons] at h
      rcases h with h | h <;> simp [insertL, hk, h, ih]

theorem keys_insertL_of_mem {α : Type} (m : List (String × α)) (k : String) (v : α)
    (h : k ∈ m.map Prod.fst) : (insertL m k v).map Prod.fst = m.map Prod.fst := by
  induction m with
  | nil => simp at h
  | cons kv rest ih =>
    obtain ⟨k₀, v₀⟩ := kv
    by_cases hk : k₀ = k
    · simp [insertL, hk]
    · simp only [List.map_cons, List.mem_cons] at h
      rcases h with h | h
      · exact absurd h.symm hk
      · simp [insertL, hk, ih h]

theorem mem_keys_of_lookupL {α : Type} {m : List (String × α)} {k : String} {v : α}
    (h : lookupL m k = some v) : k ∈ m.map Prod.fst := by
  by_contra hc
  rw [← lookupL_eq_none_iff] at hc
  rw [h] at hc
  cases hc

theorem insertL_comm_of_mem {α : Type} (m : List (String × α)) (f k : String) (v u : α)
    (hf : f ∈ m.map Prod.fst) (hne : k ≠ f) :
    insertL (insertL m f v) k u = insertL (insertL m k u) f v := by
  induction m with
  | nil => simp at hf
  | cons kv rest ih =>
    obtain ⟨k₀, v₀⟩ := kv
    by_cases h₀f : k₀ = f
    · subst h₀f
      have h₀k : k₀ ≠ k := fun he => hne he.symm
      simp [insertL, h₀k]
    · by_cases h₀k : k₀ = k
      · subst h₀k
        simp [insertL, h₀f]
      · simp only [List.map_cons, List.mem_cons] at hf
        rcases hf with hf | hf
        · exact absurd hf.symm h₀f
        · simp [insertL, h₀f, h₀k, ih hf]

/-! ## Lemmas about `restoreAll` (the `Rollback` loop) -/

theorem restoreAll_nil (m : Attributes) : restoreAll m [] = m := rfl

theorem restoreAll_cons (m : Attributes) (k : String) (v : Value) (ov : Attributes) :
    restoreAll m ((k, v) :: ov) = restoreAll (insertL m k v) ov := rfl

theorem restoreAll_append_single (m : Attributes) (ov : Attributes) (k : String) (v : Value) :
    restoreAll m (ov ++ [(k, v)]) = insertL (restoreAll m ov) k v := by
  simp [restoreAll, List.foldl_append]

theorem lookupL_restoreAll_not_mem (m : Attributes) (ov : Attributes) (k : String)
    (h : k ∉ ov.map Prod.fst) : lookupL (restoreAll m ov) k = lookupL m k := by
  induction ov generalizing m with
  | nil => rfl
  | cons kv rest ih =>
    obtain ⟨k₀, v₀⟩ := kv
    simp only [List.map_cons, List.mem_cons, not_or] at h
    rw [restoreAll_cons, ih _ h.2, lookupL_insertL_ne _ _ _ _ (fun he => h.1 he.symm)]

theorem restoreAll_insertL_not_mem (m : Attributes) (ov : Attributes) (f : String) (v : Value)
    (hov : f ∉ ov.map Prod.fst) (hm : f ∈ m.map Prod.fst) :
    restoreAll (insertL m f v) ov = insertL (restoreAll m ov) f v := by
  induction ov generalizing m with
  | nil => rfl
  | cons kv rest ih =>
    obtain ⟨k₀, v₀⟩ := kv
    simp only [List.map_cons, List.mem_cons, not_or] at hov
    rw [restoreAll_cons,
      insertL_comm_of_mem m f k₀ v v₀ hm (fun he => hov.1 he.symm),
      ih _ hov.2 (mem_keys_insertL m k₀ f v₀ hm), restoreAll_cons]

theorem restoreAll_insertL_mem (m : Attributes) (ov : Attributes) (f : String) (v : Value)
    (hov : f ∈ ov.map Prod.fst) (hm : f ∈ m.map Prod.fst) :
    restoreAll (insertL m f v) ov = restoreAll m ov := by
  induction ov generalizing m with
  | nil => simp at hov
  | cons kv rest ih =>
    obtain ⟨k₀, v₀⟩ := kv
    by_cases h₀ : k₀ = f
    · subst h₀
      rw [restoreAll_cons, insertL_insertL_same, restoreAll_cons]
    · simp only [List.map_cons, List.mem_cons] at hov
      rcases hov with hov | hov
      · exact absurd hov.symm h₀
      · rw [restoreAll_cons,
          insertL_comm_of_mem m f k₀ v v₀ hm (fun he => h₀ he),
          ih _ hov (mem_keys_insertL m k₀ f v₀ hm), restoreAll_cons]

/-! ## Mutation sequences for the rollback round-trip claim -/

/-- One caller-visible mutation: a `Set(f, v)` call or a `Delete()`
call.  A failed `Set` (unknown attribute) leaves the object untouched,
exactly as the Go method does when it returns the error. -/
inductive Op where
  | set (key : String) (value : Value)
  | del

def applyOp (s : ServerObject) (op : Op) : ServerObject :=
  match op with
  | .set k v =>
    match s.Set k v with
    | .ok s' => s'
    | .error _ => s
  | .del => s.Delete

def applyOps (s : ServerObject) (ops : List Op) : ServerObject :=
  ops.foldl applyOp s

/-- The rollback invariant: folding the captured prior values back into
the attribute map recovers the settled attribute map, across any
mutation. -/
theorem restore_applyOp (a₀ : Attributes) (s : ServerObject) (op : Op)
    (h : restoreAll s.attributes s.oldValues = a₀) :
    restoreAll (applyOp s op).attributes (applyOp s op).oldValues = a₀ := by
  cases op with
  | del => simpa [applyOp, ServerObject.Delete] using h
  | set k v =>
    simp only [applyOp]
    cases hlk : lookupL s.attributes k with
    | none => simpa [ServerObject.Set, hlk] using h
    | some old =>
      have hka : k ∈ s.attributes.map Prod.fst := mem_keys_of_lookupL hlk
      cases htr : (lookupL s.oldValues k).isSome with
      | true =>
        have hkov : k ∈ s.oldValues.map Prod.fst := (lookupL_isSome_iff _ _).mp htr
        simp only [ServerObject.Set, hlk, htr, if_true]
        rw [restoreAll_insertL_mem _ _ _ _ hkov hka]
        exact h
      | false =>
        have hkov : k ∉ s.oldValues.map Prod.fst := by
          rw [← lookupL_eq_none_iff, ← Option.not_isSome_iff_eq_none, htr]
          simp
        simp only [ServerObject.Set, hlk, htr, Bool.false_eq_true, if_false]
        rw [insertL_append_of_not_mem _ _ _ hkov, restoreAll_append_single,
          restoreAll_insertL_not_mem _ _ _ _ hkov hka, insertL_insertL_same,
          insertL_self_of_lookup]
        · exact h
        · rw [lookupL_restoreAll_not_mem _ _ _ hkov]
          exact hlk

theorem restore_applyOps (a₀ : Attributes) (s : ServerObject) (ops : List Op)
    (h : restoreAll s.attributes s.oldValues = a₀) :
    restoreAll (applyOps s ops).attributes (applyOps s ops).oldValues = a₀ := by
  induction ops generalizing s with
  | nil => exact h
  | cons op rest ih => exact ih (applyOp s op) (restore_applyOp a₀ s op h)

/-- C1: starting from a settled `ServerObject` (`oldValues` empty) with
a non-nil `object_id`, any sequence of `Set` and `Delete` calls
followed by a single `Rollback()` restores the attribute map exactly
(so every `Get(f)` returns its pre-mutation value), clears the deleted
marker, empties the prior-value map, and makes `CommitState()` return
`"consistent"`. -/
theorem C1_rollback_roundtrip (s₀ : ServerObject) (ops : List Op)
    (hsettled : s₀.oldValues = [])
    (hid : objectIdIsNil s₀ = false) :
    (applyOps s₀ ops).Rollback =
      { attributes := s₀.attributes, oldValues := [], deleted := false } ∧
    (applyOps s₀ ops).Rollback.CommitState = .consistent ∧
    ∀ f, (applyOps s₀ ops).Rollback.Get f = s₀.Get f := by
  have hres : restoreAll (applyOps s₀ ops).attributes (applyOps s₀ ops).oldValues
      = s₀.attributes := by
    apply restore_applyOps
    rw [hsettled, restoreAll_nil]
  have h1 : (applyOps s₀ ops).Rollback =
      { attributes := s₀.attributes, oldValues := [], deleted := false } := by
    simp [ServerObject.Rollback, hres]
  refine ⟨h1, ?_, ?_⟩
  · rw [h1]
    have hid' : objectIdIsNil
        { attributes := s₀.attributes, oldValues := [], deleted := (false : Bool) } = false := hid
    simp [ServerObject.CommitState, hid']
  · intro f
    rw [h1]
    rfl

/-- Concrete settled object for the C1 witness. -/
def c1obj : ServerObject :=
  { attributes := [("object_id", .int 42), ("hostname", .str "a"),
                   ("tags", .list [.str "x", .str "old"])]
    oldValues := []
    deleted := false }

/-- Concrete mutation sequence for the C1 witness: two different
fields written (one twice), a slice overwrite, and two deletes. -/
def c1ops : List Op :=
  [.set "hostname" (.str "b"), .set "tags" (.list [.str "y", .str "z"]),
   .del, .set "hostname" (.str "c"), .del]

/-- Witness for C1 at a concrete object and mutation sequence. -/
theorem C1_witness :
    (applyOps c1obj c1ops).Rollback =
      { attributes := c1obj.attributes, oldValues := [], deleted := false } ∧
    (applyOps c1obj c1ops).Rollback.CommitState = .consistent ∧
    (applyOps c1obj c1ops).Rollback.Get "hostname" = Value.str "a" := by
  have h := C1_rollback_roundtrip c1obj c1ops rfl (by decide)
  exact ⟨h.1, h.2.1, (h.2.2 "hostname").trans (by decide)⟩

/-! ## Claims C2: first-write-wins prior-value capture -/

theorem lookupL_append_of_none {α : Type} (l₁ l₂ : List (String × α)) (k : String)
    (h : lookupL l₁ k = none) : lookupL (l₁ ++ l₂) k = lookupL l₂ k := by
  induction l₁ with
  | nil => rfl
  | cons kv rest ih =>
    obtain ⟨k', v⟩ := kv
    by_cases hk : k' = k
    · simp [lookupL, hk] at h
    · simp only [lookupL, if_neg hk] at h
      simpa only [List.cons_append, lookupL, if_neg hk] using ih h

theorem lookupL_filterMap_of_not_mem {β : Type} (g : String × Value → Option (String × β))
    (hg : ∀ kv b, g kv = some b → b.1 = kv.1)
    (l : Attributes) (f : String) (hf : f ∉ l.map Prod.fst) :
    lookupL (l.filterMap g) f = none := by
  induction l with
  | nil => rfl
  | cons kv rest ih =>
    simp only [List.map_cons, List.mem_cons, not_or] at hf
    rw [List.filterMap_cons]
    cases hgkv : g kv with
    | none => exact ih hf.2
    | some b =>
      obtain ⟨b1, b2⟩ := b
      have hb1 : b1 = kv.1 := hg kv (b1, b2) hgkv
      subst hb1
      rw [lookupL, if_neg (fun he => hf.1 he.symm)]
      exact ih hf.2

/-- C2 (amended): when `Set(f, v1)` is the first write to `f` since the
last settle point, the prior-value map captures the value `f` held
before `v1`; a second `Set(f, v2)` leaves that captured value (and the
whole prior-value map) untouched; and — provided the captured value and
`v2` differ under canonical JSON serialization and are not both
sequences — `serializeChanges()` reports the `update` action with
`old =` the value before `v1` and `new = v2` for `f`.  (As stated, the
claim fails when the two conditions are violated: a json-equal final
value is skipped entirely, and two sequences are reported as a `multi`
action; see the counterexample.) -/
theorem C2_first_write_wins (s₀ : ServerObject) (f : String) (v1 v2 pre : Value)
    (huntracked : lookupL s₀.oldValues f = none)
    (hpre : lookupL s₀.attributes f = some pre)
    (s₁ s₂ : ServerObject)
    (h1 : s₀.Set f v1 = .ok s₁) (h2 : s₁.Set f v2 = .ok s₂)
    (hneq : jsonEqual pre v2 = false)
    (hnotboth : (toAnySlice pre).isSome = false ∨ (toAnySlice v2).isSome = false) :
    lookupL s₂.oldValues f = some pre ∧
    s₂.oldValues = s₁.oldValues ∧
    lookupL s₂.serializeChanges.entries f = some (.update pre v2) := by
  have hs₁ : s₁ = { attributes := insertL s₀.attributes f v1
                    oldValues := insertL s₀.oldValues f pre
                    deleted := s₀.deleted } := by
    simp [ServerObject.Set, hpre, huntracked] at h1
    exact h1.symm
  have hlk1 : lookupL s₁.attributes f = some v1 := by
    rw [hs₁]
    exact lookupL_insertL_self _ _ _
  have htr1 : lookupL s₁.oldValues f = some pre := by
    rw [hs₁]
    exact lookupL_insertL_self _ _ _
  have hs₂ : s₂ = { attributes := insertL s₁.attributes f v2
                    oldValues := s₁.oldValues
                    deleted := s₁.deleted } := by
    simp [ServerObject.Set, hlk1, htr1] at h2
    exact h2.symm
  have hov₂ : s₂.oldValues = insertL s₀.oldValues f pre := by
    rw [hs₂, hs₁]
  have hattr₂ : lookupL s₂.attributes f = some v2 := by
    rw [hs₂]
    exact lookupL_insertL_self _ _ _
  have hmemov : f ∉ s₀.oldValues.map Prod.fst := (lookupL_eq_none_iff _ _).mp huntracked
  refine ⟨?_, by rw [hs₂], ?_⟩
  · rw [hov₂]
    exact lookupL_insertL_self _ _ _
  · rw [ServerObject.serializeChanges]
    simp only
    rw [hov₂, insertL_append_of_not_mem _ _ _ hmemov, List.filterMap_append,
      lookupL_append_of_none]
    · rw [List.filterMap_cons]
      simp only [List.filterMap_nil, hattr₂, valueOrNull, hneq, Bool.false_eq_true,
        if_false]
      rcases hnotboth with hb | hb
      · cases hpa : toAnySlice pre with
        | none => simp [hpa, lookupL]
        | some xs => rw [hpa] at hb; simp at hb
      · cases hpa : toAnySlice pre with
        | none => simp [hpa, lookupL]
        | some xs =>
          cases hpb : toAnySlice v2 with
          | none => simp [hpa, hpb, lookupL]
          | some ys => rw [hpb] at hb; simp at hb
    · apply lookupL_filterMap_of_not_mem
      · intro kv b hgkv
        simp only at hgkv
        by_cases hc : jsonEqual kv.2 (valueOrNull (lookupL s₂.attributes kv.1)) = true
        · simp [hc] at hgkv
        · simp only [eq_false_of_ne_true hc, Bool.false_eq_true, if_false] at hgkv
          split at hgkv <;> (injection hgkv with hgkv; rw [← hgkv])
      · exact hmemov

/-- Concrete object for the C2 counterexample. -/
def c2obj : ServerObject :=
  { attributes := [("object_id", .int 1), ("hostname", .str "a")]
    oldValues := []
    deleted := false }

/-- Counterexample to C2 as stated: after `Set("hostname", "b")` then
`Set("hostname", "a")` (restoring the original value), both `Set` calls
succeed but `serializeChanges()` reports **no** entry for the field —
the delta omits json-equal fields — instead of the claimed
`old = "a", new = "a"` update pair. -/
theorem C2_counterexample :
    ((c2obj.Set "hostname" (.str "b")).bind (fun s => s.Set "hostname" (.str "a"))).map
      (fun s => lookupL s.serializeChanges.entries "hostname") = .ok none := by
  decide

/-- Witness for the amended C2 at concrete inputs. -/
theorem C2_witness :
    lookupL
      (match (c2obj.Set "hostname" (.str "b")).bind (fun s => s.Set "hostname" (.str "c")) with
       | .ok s => s.oldValues
       | .error _ => []) "hostname" = some (.str "a") := by
  have h := C2_first_write_wins c2obj "hostname" (.str "b") (.str "c") (.str "a")
    (by decide) (by decide)
    { attributes := [("object_id", .int 1), ("hostname", .str "b")]
      oldValues := [("hostname", .str "a")], deleted := false }
    { attributes := [("object_id", .int 1), ("hostname", .str "c")]
      oldValues := [("hostname", .str "a")], deleted := false }
    (by decide) (by decide) (by decide) (Or.inl (by decide))
  exact h.1

/-! ## Claims C3/C4: set semantics of `sliceDiff` -/

theorem lookupL_isNone_iff {α : Type} (m : List (String × α)) (k : String) :
    (lookupL m k).isNone = true ↔ k ∉ m.map Prod.fst := by
  rw [Option.isNone_iff_eq_none, lookupL_eq_none_iff]

theorem mem_insertL {α : Type} (m : List (String × α)) (k : String) (v : α)
    (kv : String × α) (h : kv ∈ insertL m k v) : kv ∈ m ∨ kv = (k, v) := by
  induction m with
  | nil => simpa [insertL] using h
  | cons kv₀ rest ih =>
    obtain ⟨k₀, v₀⟩ := kv₀
    by_cases hk : k₀ = k
    · subst hk
      simp only [insertL, if_pos rfl] at h
      cases h with
      | head => exact Or.inr rfl
      | tail _ h => exact Or.inl (List.mem_cons_of_mem _ h)
    · simp only [insertL, if_neg hk, List.mem_cons] at h
      cases h with
      | inl h => exact Or.inl (List.mem_cons.mpr (Or.inl h))
      | inr h =>
        cases ih h with
        | inl h' => exact Or.inl (List.mem_cons_of_mem _ h')
        | inr h' => exact Or.inr h'

theorem mem_keys_insertL_self {α : Type} (m : List (String × α)) (k : String) (v : α) :
    k ∈ (insertL m k v).map Prod.fst := by
  induction m with
  | nil => simp [insertL]
  | cons kv rest ih =>
    obtain ⟨k₀, v₀⟩ := kv
    by_cases hk : k₀ = k <;> simp [insertL, hk, ih]

theorem nodup_keys_insertL {α : Type} (m : List (String × α)) (k : String) (v : α)
    (h : (m.map Prod.fst).Nodup) : ((insertL m k v).map Prod.fst).Nodup := by
  by_cases hk : k ∈ m.map Prod.fst
  · rw [keys_insertL_of_mem _ _ _ hk]
    exact h
  · rw [insertL_append_of_not_mem _ _ _ hk]
    simp only [List.map_append, List.map_cons, List.map_nil]
    exact List.Nodup.append h (List.nodup_singleton k)
      (by simpa [List.disjoint_right] using hk)

theorem buildKeySet_mem_aux (xs : List Value) (m : List (String × Value))
    (kv : String × Value)
    (h : kv ∈ xs.foldl (fun acc v => insertL acc (jsonMarshal v) v) m) :
    kv ∈ m ∨ (kv.1 = jsonMarshal kv.2 ∧ kv.2 ∈ xs) := by
  induction xs generalizing m with
  | nil => exact Or.inl h
  | cons x rest ih =>
    rw [List.foldl_cons] at h
    rcases ih (insertL m (jsonMarshal x) x) h with h' | h'
    · rcases mem_insertL _ _ _ _ h' with h'' | h''
      · exact Or.inl h''
      · refine Or.inr ⟨?_, ?_⟩
        · rw [h'']
        · rw [h'']
          exact List.mem_cons_self _ _
    · exact Or.inr ⟨h'.1, List.mem_cons_of_mem _ h'.2⟩

theorem buildKeySet_mem (xs : List Value) (kv : String × Value)
    (h : kv ∈ buildKeySet xs) : kv.1 = jsonMarshal kv.2 ∧ kv.2 ∈ xs := by
  rcases buildKeySet_mem_aux xs [] kv h with h' | h'
  · cases h'
  · exact h'

theorem keys_foldl_build_mono (xs : List Value) (m : List (String × Value)) (k : String)
    (h : k ∈ m.map Prod.fst) :
    k ∈ (xs.foldl (fun acc v => insertL acc (jsonMarshal v) v) m).map Prod.fst := by
  induction xs generalizing m with
  | nil => exact h
  | cons x rest ih =>
    rw [List.foldl_cons]
    exact ih _ (mem_keys_insertL _ _ _ _ h)

theorem keys_foldl_build_cover (xs : List Value) (m : List (String × Value)) (v : Value)
    (h : v ∈ xs) :
    jsonMarshal v ∈ (xs.foldl (fun acc w => insertL acc (jsonMarshal w) w) m).map Prod.fst := by
  induction xs generalizing m with
  | nil => cases h
  | cons x rest ih =>
    rw [List.foldl_cons]
    rcases List.mem_cons.mp h with h' | h'
    · subst h'
      exact keys_foldl_build_mono rest _ _ (mem_keys_insertL_self _ _ _)
    · exact ih _ h'

theorem buildKeySet_keys_cover (xs : List Value) (v : Value) (h : v ∈ xs) :
    jsonMarshal v ∈ (buildKeySet xs).map Prod.fst :=
  keys_foldl_build_cover xs [] v h

theorem buildKeySet_keys_iff (xs : List Value) (k : String) :
    k ∈ (buildKeySet xs).map Prod.fst ↔ k ∈ xs.map jsonMarshal := by
  constructor
  · intro h
    rcases List.mem_map.mp h with ⟨kv, hkv, hk⟩
    rcases buildKeySet_mem xs kv hkv with ⟨h1, h2⟩
    rw [← hk, h1]
    exact List.mem_map_of_mem _ h2
  · intro h
    rcases List.mem_map.mp h with ⟨v, hv, hk⟩
    rw [← hk]
    exact buildKeySet_keys_cover xs v hv

theorem nodup_keys_foldl_build (xs : List Value) (m : List (String × Value))
    (h : (m.map Prod.fst).Nodup) :
    ((xs.foldl (fun acc v => insertL acc (jsonMarshal v) v) m).map Prod.fst).Nodup := by
  induction xs generalizing m with
  | nil => exact h
  | cons x rest ih =>
    rw [List.foldl_cons]
    exact ih _ (nodup_keys_insertL _ _ _ h)

theorem buildKeySet_keys_nodup (xs : List Value) :
    ((buildKeySet xs).map Prod.fst).Nodup :=
  nodup_keys_foldl_build xs [] List.nodup_nil

theorem diffHalf_mem (old cur : List Value) (pO pC : List (String × Value))
    (hpO : pO.Perm (buildKeySet old)) (hpC : pC.Perm (buildKeySet cur))
    (v : Value)
    (hv : v ∈ (pC.filter (fun kv => (lookupL pO kv.1).isNone)).map Prod.snd) :
    v ∈ cur ∧ jsonMarshal v ∉ old.map jsonMarshal := by
  rcases List.mem_map.mp hv with ⟨kv, hkvf, hsnd⟩
  rcases List.mem_filter.mp hkvf with ⟨hkvC, hP⟩
  rcases buildKeySet_mem cur kv (hpC.mem_iff.mp hkvC) with ⟨hk1, hk2⟩
  have hP' : kv.1 ∉ pO.map Prod.fst := (lookupL_isNone_iff _ _).mp (by simpa using hP)
  subst hsnd
  refine ⟨hk2, ?_⟩
  rw [← hk1]
  intro hmem
  exact hP' (((hpO.map Prod.fst).mem_iff).mpr ((buildKeySet_keys_iff old kv.1).mpr hmem))

theorem diffHalf_cover (old cur : List Value) (pO pC : List (String × Value))
    (hpO : pO.Perm (buildKeySet old)) (hpC : pC.Perm (buildKeySet cur))
    (v : Value) (hv : v ∈ cur) (hnot : jsonMarshal v ∉ old.map jsonMarshal) :
    ∃ w ∈ (pC.filter (fun kv => (lookupL pO kv.1).isNone)).map Prod.snd,
      jsonMarshal w = jsonMarshal v := by
  have hkey : jsonMarshal v ∈ pC.map Prod.fst :=
    ((hpC.map Prod.fst).mem_iff).mpr (buildKeySet_keys_cover cur v hv)
  rcases List.mem_map.mp hkey with ⟨kv, hkvC, hfst⟩
  rcases buildKeySet_mem cur kv (hpC.mem_iff.mp hkvC) with ⟨hk1, hk2⟩
  have hP : (lookupL pO kv.1).isNone = true := by
    rw [lookupL_isNone_iff]
    intro hin
    apply hnot
    have hmem : kv.1 ∈ (buildKeySet old).map Prod.fst := ((hpO.map Prod.fst).mem_iff).mp hin
    rw [hfst] at hmem
    exact (buildKeySet_keys_iff old _).mp hmem
  refine ⟨kv.2, ?_, ?_⟩
  · exact List.mem_map_of_mem _ (List.mem_filter.mpr ⟨hkvC, hP⟩)
  · rw [← hk1, hfst]

theorem diffHalf_nodup (cur : List Value) (pO pC : List (String × Value))
    (hpC : pC.Perm (buildKeySet cur)) :
    (((pC.filter (fun kv => (lookupL pO kv.1).isNone)).map Prod.snd).map jsonMarshal).Nodup := by
  have hkeys : (pC.map Prod.fst).Nodup :=
    ((hpC.map Prod.fst).nodup_iff).mpr (buildKeySet_keys_nodup cur)
  have hsub : List.Sublist (pC.filter (fun kv => (lookupL pO kv.1).isNone)) pC :=
    List.filter_sublist _
  have hnodup : ((pC.filter (fun kv => (lookupL pO kv.1).isNone)).map Prod.fst).Nodup :=
    (hsub.map Prod.fst).nodup hkeys
  have hcong :
      ((pC.filter (fun kv => (lookupL pO kv.1).isNone)).map Prod.snd).map jsonMarshal =
        (pC.filter (fun kv => (lookupL pO kv.1).isNone)).map Prod.fst := by
    rw [List.map_map]
    apply List.map_congr_left
    intro kv hkv
    have hmem : kv ∈ pC := (List.mem_filter.mp hkv).1
    exact (buildKeySet_mem cur kv (hpC.mem_iff.mp hmem)).1.symm
  rw [hcong]
  exact hnodup

theorem diffHalf_empty (old cur : List Value) (pO pC : List (String × Value))
    (hpO : pO.Perm (buildKeySet old)) (hpC : pC.Perm (buildKeySet cur))
    (hsub : ∀ k, k ∈ cur.map jsonMarshal → k ∈ old.map jsonMarshal) :
    pC.filter (fun kv => (lookupL pO kv.1).isNone) = [] := by
  rw [List.filter_eq_nil_iff]
  intro kv hkv
  rcases buildKeySet_mem cur kv (hpC.mem_iff.mp hkv) with ⟨hk1, hk2⟩
  simp only [Bool.not_eq_true, Option.isNone_eq_false_iff, Option.isSome_iff_ne_none, ne_eq,
    lookupL_eq_none_iff, not_not]
  apply ((hpO.map Prod.fst).mem_iff).mpr
  apply (buildKeySet_keys_iff old kv.1).mpr
  rw [hk1]
  exact hsub _ (List.mem_map_of_mem _ hk2)

theorem eq_singleton_of_mem_of_all {α β : Type} (l : List α) (x : α) (f : α → β)
    (hx : x ∈ l) (hall : ∀ v ∈ l, v = x) (hnd : (l.map f).Nodup) : l = [x] := by
  cases l with
  | nil => cases hx
  | cons a t =>
    cases t with
    | nil => rw [hall a (List.mem_cons_self a [])]
    | cons b t' =>
      exfalso
      have ha : a = x := hall a (by simp)
      have hb : b = x := hall b (by simp)
      rw [ha, hb] at hnd
      simp at hnd

/-- C3: `sliceDiff` implements set-difference keyed by canonical JSON
serialization, for every admissible range order over its two internal
map snapshots (`pO`, `pC` are arbitrary permutations of the built key
sets): `add` consists of elements of `new` whose serialization is
absent from `old` — each represented exactly once — and symmetrically
for `remove`; membership-equal inputs produce the empty diff; and for
`old ~ [a, b]`, `new ~ [b, c]` with pairwise distinct serializations
the diff is exactly `add = [c]`, `remove = [a]`. -/
theorem C3_sliceDiff_set_semantics (old cur : List Value) (pO pC : List (String × Value))
    (hpO : pO.Perm (buildKeySet old)) (hpC : pC.Perm (buildKeySet cur)) :
    (∀ v ∈ (sliceDiffOn pO pC).1, v ∈ cur ∧ jsonMarshal v ∉ old.map jsonMarshal) ∧
    (∀ v ∈ cur, jsonMarshal v ∉ old.map jsonMarshal →
      ∃ w ∈ (sliceDiffOn pO pC).1, jsonMarshal w = jsonMarshal v) ∧
    ((sliceDiffOn pO pC).1.map jsonMarshal).Nodup ∧
    (∀ v ∈ (sliceDiffOn pO pC).2, v ∈ old ∧ jsonMarshal v ∉ cur.map jsonMarshal) ∧
    (∀ v ∈ old, jsonMarshal v ∉ cur.map jsonMarshal →
      ∃ w ∈ (sliceDiffOn pO pC).2, jsonMarshal w = jsonMarshal v) ∧
    ((sliceDiffOn pO pC).2.map jsonMarshal).Nodup ∧
    ((∀ k, k ∈ old.map jsonMarshal ↔ k ∈ cur.map jsonMarshal) →
      sliceDiffOn pO pC = ([], [])) ∧
    (∀ a b c : Value, jsonMarshal a ≠ jsonMarshal b → jsonMarshal a ≠ jsonMarshal c →
      jsonMarshal b ≠ jsonMarshal c → old.Perm [a, b] → cur.Perm [b, c] →
      sliceDiffOn pO pC = ([c], [a])) := by
  have hmem1 := diffHalf_mem old cur pO pC hpO hpC
  have hcov1 := diffHalf_cover old cur pO pC hpO hpC
  have hnd1 := diffHalf_nodup cur pO pC hpC
  have hmem2 := diffHalf_mem cur old pC pO hpC hpO
  have hcov2 := diffHalf_cover cur old pC pO hpC hpO
  have hnd2 := diffHalf_nodup old pC pO hpO
  refine ⟨hmem1, hcov1, hnd1, hmem2, hcov2, hnd2, ?_, ?_⟩
  · intro hiff
    have h1 : pC.filter (fun kv => (lookupL pO kv.1).isNone) = [] :=
      diffHalf_empty old cur pO pC hpO hpC (fun k hk => (hiff k).mpr hk)
    have h2 : pO.filter (fun kv => (lookupL pC kv.1).isNone) = [] :=
      diffHalf_empty cur old pC pO hpC hpO (fun k hk => (hiff k).mp hk)
    simp [sliceDiffOn, h1, h2]
  · intro a b c hab hac hbc hold hcur
    have holdm : ∀ k, k ∈ old.map jsonMarshal ↔ (k = jsonMarshal a ∨ k = jsonMarshal b) := by
      intro k
      rw [(hold.map jsonMarshal).mem_iff]
      simp [eq_comm]
    have hcurm : ∀ k, k ∈ cur.map jsonMarshal ↔ (k = jsonMarshal b ∨ k = jsonMarshal c) := by
      intro k
      rw [(hcur.map jsonMarshal).mem_iff]
      simp [eq_comm]
    -- add = [c]
    have hcnot : jsonMarshal c ∉ old.map jsonMarshal := by
      rw [holdm]
      push_neg
      exact ⟨fun he => hac he.symm, fun he => hbc he.symm⟩
    have hcin : c ∈ cur := hcur.mem_iff.mpr (by simp)
    obtain ⟨w, hw, hwm⟩ := hcov1 c hcin hcnot
    have halladd : ∀ v ∈ (sliceDiffOn pO pC).1, v = c := by
      intro v hv
      rcases hmem1 v hv with ⟨hvc, hvnot⟩
      have hvbc : v = b ∨ v = c := by simpa using hcur.mem_iff.mp hvc
      rcases hvbc with h | h
      · exfalso
        apply hvnot
        rw [h, holdm]
        exact Or.inr rfl
      · exact h
    have hwc : w = c := halladd w hw
    rw [hwc] at hw
    have hadd : (sliceDiffOn pO pC).1 = [c] :=
      eq_singleton_of_mem_of_all _ c jsonMarshal hw halladd hnd1
    -- remove = [a]
    have hanot : jsonMarshal a ∉ cur.map jsonMarshal := by
      rw [hcurm]
      push_neg
      exact ⟨hab, hac⟩
    have hain : a ∈ old := hold.mem_iff.mpr (by simp)
    obtain ⟨w', hw', hwm'⟩ := hcov2 a hain hanot
    have hallrem : ∀ v ∈ (sliceDiffOn pO pC).2, v = a := by
      intro v hv
      rcases hmem2 v hv with ⟨hvo, hvnot⟩
      have hvab : v = a ∨ v = b := by simpa using hold.mem_iff.mp hvo
      rcases hvab with h | h
      · exact h
      · exfalso
        apply hvnot
        rw [h, hcurm]
        exact Or.inl rfl
    have hwa : w' = a := hallrem w' hw'
    rw [hwa] at hw'
    have hrem : (sliceDiffOn pO pC).2 = [a] :=
      eq_singleton_of_mem_of_all _ a jsonMarshal hw' hallrem hnd2
    exact Prod.ext hadd hrem

/-- Witness for C3: the canonical range order over `old = ["a", "b"]`,
`new = ["b", "c"]`, instantiating the pairwise-diff consequence:
`sliceDiff` yields `add = ["c"]`, `remove = ["a"]`. -/
theorem C3_witness :
    sliceDiff [Value.str "a", Value.str "b"] [Value.str "b", Value.str "c"]
      = ([Value.str "c"], [Value.str "a"]) := by
  have h := C3_sliceDiff_set_semantics [Value.str "a", Value.str "b"]
    [Value.str "b", Value.str "c"]
    (buildKeySet [Value.str "a", Value.str "b"])
    (buildKeySet [Value.str "b", Value.str "c"])
    (List.Perm.refl _) (List.Perm.refl _)
  exact h.2.2.2.2.2.2.2 (.str "a") (.str "b") (.str "c")
    (by decide) (by decide) (by decide) (List.Perm.refl _) (List.Perm.refl _)

theorem lookupL_isNone_congr {α : Type} (m m' : List (String × α)) (k : String)
    (h : k ∈ m.map Prod.fst ↔ k ∈ m'.map Prod.fst) :
    (lookupL m k).isNone = (lookupL m' k).isNone := by
  have hiff : (lookupL m k).isNone = true ↔ (lookupL m' k).isNone = true := by
    rw [lookupL_isNone_iff, lookupL_isNone_iff]
    exact not_congr h
  cases hb : (lookupL m' k).isNone with
  | true => exact hiff.mpr hb
  | false =>
    cases hb' : (lookupL m k).isNone with
    | true => exact absurd (hiff.mp hb') (by simp [hb])
    | false => rfl

/-- Counterexample to C4 as stated: `sliceDiff`'s two collection loops
range over Go maps, whose iteration order is unspecified; both listed
snapshots are admissible range orders of the `curSet` built from
`new = ["x", "y"]` against `old = []`, yet they produce `add` in two
different element orders — the function is not deterministic across
calls in the element-wise sense the claim asserts. -/
theorem C4_counterexample :
    ([("\"x\"", Value.str "x"), ("\"y\"", Value.str "y")] :
        List (String × Value)).Perm (buildKeySet [Value.str "x", Value.str "y"]) ∧
    ([("\"y\"", Value.str "y"), ("\"x\"", Value.str "x")] :
        List (String × Value)).Perm (buildKeySet [Value.str "x", Value.str "y"]) ∧
    sliceDiffOn (buildKeySet [])
        [("\"x\"", Value.str "x"), ("\"y\"", Value.str "y")] ≠
      sliceDiffOn (buildKeySet [])
        [("\"y\"", Value.str "y"), ("\"x\"", Value.str "x")] := by
  decide

/-- C4 (amended): across any two admissible range orders (hence any
two calls on equal inputs), `sliceDiff` returns `add` and `remove`
sequences that are permutations of each other — the same elements,
each at most once, but in an unspecified order — and whenever there is
nothing to add (resp. remove) the returned sequence is the empty
(non-nil, `[]`-serializing) slice the function is initialized with. -/
theorem C4_sliceDiff_deterministic_up_to_order (old cur : List Value)
    (pO pC pO' pC' : List (String × Value))
    (hpO : pO.Perm (buildKeySet old)) (hpC : pC.Perm (buildKeySet cur))
    (hpO' : pO'.Perm (buildKeySet old)) (hpC' : pC'.Perm (buildKeySet cur)) :
    (sliceDiffOn pO pC).1.Perm (sliceDiffOn pO' pC').1 ∧
    (sliceDiffOn pO pC).2.Perm (sliceDiffOn pO' pC').2 ∧
    ((∀ k, k ∈ cur.map jsonMarshal → k ∈ old.map jsonMarshal) →
      (sliceDiffOn pO pC).1 = []) ∧
    ((∀ k, k ∈ old.map jsonMarshal → k ∈ cur.map jsonMarshal) →
      (sliceDiffOn pO pC).2 = []) := by
  have hOkeys : ∀ k, k ∈ pO.map Prod.fst ↔ k ∈ pO'.map Prod.fst := by
    intro k
    rw [(hpO.map Prod.fst).mem_iff, (hpO'.map Prod.fst).mem_iff]
  have hCkeys : ∀ k, k ∈ pC.map Prod.fst ↔ k ∈ pC'.map Prod.fst := by
    intro k
    rw [(hpC.map Prod.fst).mem_iff, (hpC'.map Prod.fst).mem_iff]
  refine ⟨?_, ?_, ?_, ?_⟩
  · have hfc : pC.filter (fun kv => (lookupL pO kv.1).isNone) =
        pC.filter (fun kv => (lookupL pO' kv.1).isNone) :=
      List.filter_congr (fun kv _ => lookupL_isNone_congr pO pO' kv.1 (hOkeys kv.1))
    have hperm : (pC.filter (fun kv => (lookupL pO' kv.1).isNone)).Perm
        (pC'.filter (fun kv => (lookupL pO' kv.1).isNone)) :=
      (hpC.trans hpC'.symm).filter _
    show ((pC.filter (fun kv => (lookupL pO kv.1).isNone)).map Prod.snd).Perm
      ((pC'.filter (fun kv => (lookupL pO' kv.1).isNone)).map Prod.snd)
    rw [hfc]
    exact hperm.map _
  · have hfc : pO.filter (fun kv => (lookupL pC kv.1).isNone) =
        pO.filter (fun kv => (lookupL pC' kv.1).isNone) :=
      List.filter_congr (fun kv _ => lookupL_isNone_congr pC pC' kv.1 (hCkeys kv.1))
    have hperm : (pO.filter (fun kv => (lookupL pC' kv.1).isNone)).Perm
        (pO'.filter (fun kv => (lookupL pC' kv.1).isNone)) :=
      (hpO.trans hpO'.symm).filter _
    show ((pO.filter (fun kv => (lookupL pC kv.1).isNone)).map Prod.snd).Perm
      ((pO'.filter (fun kv => (lookupL pC' kv.1).isNone)).map Prod.snd)
    rw [hfc]
    exact hperm.map _
  · intro hsub
    show ((pC.filter (fun kv => (lookupL pO kv.1).isNone)).map Prod.snd) = []
    rw [diffHalf_empty old cur pO pC hpO hpC hsub]
    rfl
  · intro hsub
    show ((pO.filter (fun kv => (lookupL pC kv.1).isNone)).map Prod.snd) = []
    rw [diffHalf_empty cur old pC pO hpC hpO hsub]
    rfl

/-- Witness for the amended C4: over `old = []`, `new = ["x", "y"]`,
the outputs at the two reversed admissible range orders are
permutations of each other, and the `remove` side is the empty slice. -/
theorem C4_witness :
    (sliceDiffOn (buildKeySet [])
        [("\"x\"", Value.str "x"), ("\"y\"", Value.str "y")]).1.Perm
      (sliceDiffOn (buildKeySet [])
        [("\"y\"", Value.str "y"), ("\"x\"", Value.str "x")]).1 ∧
    (sliceDiffOn (buildKeySet [])
        [("\"x\"", Value.str "x"), ("\"y\"", Value.str "y")]).2 = [] := by
  have h := C4_sliceDiff_deterministic_up_to_order [] [Value.str "x", Value.str "y"]
    (buildKeySet []) [("\"x\"", Value.str "x"), ("\"y\"", Value.str "y")]
    (buildKeySet []) [("\"y\"", Value.str "y"), ("\"x\"", Value.str "x")]
    (List.Perm.refl _) (by decide) (List.Perm.refl _) (by decide)
  exact ⟨h.1, h.2.2.2 (by decide)⟩

/-! ## Claim C5: the `CommitState()` decision ladder -/

/-- C5: `CommitState()` is a pure function of the current state with
the priority order created → deleted → changed → consistent: it is
`"created"` exactly when `object_id` is absent or nil; `"deleted"`
exactly when `object_id` is present and the deletion marker is set;
`"changed"` exactly when additionally some tracked prior value differs
from the current field under canonical-JSON equality; `"consistent"`
exactly when none of the above. -/
theorem C5_commitState_priority (s : ServerObject) :
    (objectIdIsNil s = true ↔
      (lookupL s.attributes "object_id" = none ∨
       lookupL s.attributes "object_id" = some .null)) ∧
    (s.CommitState = .created ↔ objectIdIsNil s = true) ∧
    (s.CommitState = .deleted ↔ objectIdIsNil s = false ∧ s.deleted = true) ∧
    (s.CommitState = .changed ↔ objectIdIsNil s = false ∧ s.deleted = false ∧
      ∃ kv ∈ s.oldValues,
        jsonMarshal kv.2 ≠ jsonMarshal (valueOrNull (lookupL s.attributes kv.1))) ∧
    (s.CommitState = .consistent ↔ objectIdIsNil s = false ∧ s.deleted = false ∧
      ∀ kv ∈ s.oldValues,
        jsonMarshal kv.2 = jsonMarshal (valueOrNull (lookupL s.attributes kv.1))) := by
  have hnil : objectIdIsNil s = true ↔
      (lookupL s.attributes "object_id" = none ∨
       lookupL s.attributes "object_id" = some .null) := by
    rw [objectIdIsNil]
    cases hlk : lookupL s.attributes "object_id" with
    | none => simp
    | some v => cases v <;> simp
  have hany : (s.oldValues.any
        (fun kv => !(jsonEqual kv.2 (valueOrNull (lookupL s.attributes kv.1)))) = true) ↔
      ∃ kv ∈ s.oldValues,
        jsonMarshal kv.2 ≠ jsonMarshal (valueOrNull (lookupL s.attributes kv.1)) := by
    rw [List.any_eq_true]
    constructor
    · rintro ⟨kv, hkv, hp⟩
      exact ⟨kv, hkv, by simpa [jsonEqual] using hp⟩
    · rintro ⟨kv, hkv, hp⟩
      exact ⟨kv, hkv, by simpa [jsonEqual] using hp⟩
  by_cases h1 : objectIdIsNil s = true
  · have hcs : s.CommitState = .created := by
      rw [ServerObject.CommitState, if_pos h1]
    refine ⟨hnil, ⟨fun _ => h1, fun _ => hcs⟩, ?_, ?_, ?_⟩
    · exact ⟨fun h => absurd (hcs.symm.trans h) (by decide),
        fun hc => absurd (h1.symm.trans hc.1) (by decide)⟩
    · exact ⟨fun h => absurd (hcs.symm.trans h) (by decide),
        fun hc => absurd (h1.symm.trans hc.1) (by decide)⟩
    · exact ⟨fun h => absurd (hcs.symm.trans h) (by decide),
        fun hc => absurd (h1.symm.trans hc.1) (by decide)⟩
  · have h1' : objectIdIsNil s = false := eq_false_of_ne_true h1
    by_cases h2 : s.deleted = true
    · have hcs : s.CommitState = .deleted := by
        rw [ServerObject.CommitState, if_neg h1, if_pos h2]
      refine ⟨hnil, ?_, ⟨fun _ => ⟨h1', h2⟩, fun _ => hcs⟩, ?_, ?_⟩
      · exact ⟨fun h => absurd (hcs.symm.trans h) (by decide),
          fun hc => absurd (h1'.symm.trans hc) (by decide)⟩
      · exact ⟨fun h => absurd (hcs.symm.trans h) (by decide),
          fun hc => absurd (h2.symm.trans hc.2.1) (by decide)⟩
      · exact ⟨fun h => absurd (hcs.symm.trans h) (by decide),
          fun hc => absurd (h2.symm.trans hc.2.1) (by decide)⟩
    · have h2' : s.deleted = false := eq_false_of_ne_true h2
      by_cases h3 : s.oldValues.any
          (fun kv => !(jsonEqual kv.2 (valueOrNull (lookupL s.attributes kv.1)))) = true
      · have hcs : s.CommitState = .changed := by
          rw [ServerObject.CommitState, if_neg h1, if_neg h2, if_pos h3]
        refine ⟨hnil, ?_, ?_, ⟨fun _ => ⟨h1', h2', hany.mp h3⟩, fun _ => hcs⟩, ?_⟩
        · exact ⟨fun h => absurd (hcs.symm.trans h) (by decide),
            fun hc => absurd (h1'.symm.trans hc) (by decide)⟩
        · exact ⟨fun h => absurd (hcs.symm.trans h) (by decide),
            fun hc => absurd (h2'.symm.trans hc.2) (by decide)⟩
        · refine ⟨fun h => absurd (hcs.symm.trans h) (by decide), ?_⟩
          rintro ⟨-, -, hall⟩
          rcases hany.mp h3 with ⟨kv, hkv, hp⟩
          exact absurd (hall kv hkv) hp
      · have hcs : s.CommitState = .consistent := by
          rw [ServerObject.CommitState, if_neg h1, if_neg h2, if_neg h3]
        refine ⟨hnil, ?_, ?_, ?_, ?_⟩
        · exact ⟨fun h => absurd (hcs.symm.trans h) (by decide),
            fun hc => absurd (h1'.symm.trans hc) (by decide)⟩
        · exact ⟨fun h => absurd (hcs.symm.trans h) (by decide),
            fun hc => absurd (h2'.symm.trans hc.2) (by decide)⟩
        · refine ⟨fun h => absurd (hcs.symm.trans h) (by decide), ?_⟩
          rintro ⟨-, -, hex⟩
          exact absurd (hany.mpr hex) h3
        · refine ⟨fun _ => ⟨h1', h2', ?_⟩, fun _ => hcs⟩
          intro kv hkv
          by_contra hne
          exact h3 (hany.mpr ⟨kv, hkv, hne⟩)

/-- Witness for C5 at concrete objects: a tracked difference makes the
state `"changed"`; an empty prior-value map with a present `object_id`
and a clear deletion marker makes it `"consistent"`. -/
theorem C5_witness :
    ({ attributes := [("object_id", .int 7), ("hostname", .str "new.local")]
       oldValues := [("hostname", .str "old.local")]
       deleted := false } : ServerObject).CommitState = .changed ∧
    ({ attributes := [("object_id", .int 7), ("hostname", .str "new.local")]
       oldValues := []
       deleted := false } : ServerObject).CommitState = .consistent := by
  constructor
  · exact (C5_commitState_priority _).2.2.2.1.mpr
      ⟨by decide, rfl, ("hostname", .str "old.local"), by decide, by decide⟩
  · exact (C5_commitState_priority _).2.2.2.2.mpr
      ⟨by decide, rfl, fun kv hkv => absurd hkv (List.not_mem_nil kv)⟩

/-! ## Claim C6: `Get` and float64 truncation -/

/-- C6 (amended): `Get` returns nil for an unset field, and otherwise
the raw stored value — except that **every** `float64` value, whether
or not it has a fractional part, is converted to a Go `int` by
truncation toward zero (`int(floatVal)`); integral floats thus become
the equal integer, and fractional floats lose their fraction. -/
theorem C6_get_characterization (s : ServerObject) (f : String) :
    (lookupL s.attributes f = none → s.Get f = .null) ∧
    (∀ q : ℚ, lookupL s.attributes f = some (.float q) → s.Get f = .int (truncQ q)) ∧
    (∀ v : Value, lookupL s.attributes f = some v → (∀ q : ℚ, v ≠ .float q) →
      s.Get f = v) := by
  refine ⟨?_, ?_, ?_⟩
  · intro h
    rw [ServerObject.Get, h]
  · intro q h
    rw [ServerObject.Get, h]
  · intro v h hv
    rw [ServerObject.Get, h]
    cases v with
    | float q => exact absurd rfl (hv q)
    | null => rfl
    | bool _ => rfl
    | int _ => rfl
    | str _ => rfl
    | list _ => rfl

/-- The rational 5/2 (the exactly representable Go float64 2.5), given
in lowest terms so that kernel evaluation never normalizes. -/
def q52 : ℚ := ⟨5, 2, by norm_num, by norm_num⟩

/-- Concrete object for the C6 counterexample: the `"ratio"` attribute
holds `float64` 2.5, which has a fractional part. -/
def c6obj : ServerObject :=
  { attributes := [("object_id", .int 1), ("ratio", .float q52)]
    oldValues := []
    deleted := false }

/-- Counterexample to C6 as stated: per the claim, a float64 with a
fractional part is not normalized, so `Get("ratio")` should return the
raw 2.5; the code runs `int(floatVal)` on every float64 and returns
the truncated int 2. -/
theorem C6_counterexample :
    c6obj.Get "ratio" = Value.int 2 ∧ c6obj.Get "ratio" ≠ Value.float q52 := by
  decide

/-- Witness for the amended C6 at concrete inputs: the truncation case
and the raw-value case. -/
theorem C6_witness :
    c6obj.Get "ratio" = Value.int (truncQ q52) ∧
    c6obj.Get "object_id" = Value.int 1 ∧
    c6obj.Get "absent" = Value.null := by
  refine ⟨?_, ?_, ?_⟩
  · exact (C6_get_characterization c6obj "ratio").2.1 q52 (by decide)
  · exact (C6_get_characterization c6obj "object_id").2.2 (.int 1) (by decide)
      (fun q h => Value.noConfusion h)
  · exact (C6_get_characterization c6obj "absent").1 (by decide)

/-! ## Claim C7: commit orchestration -/

/-- C7: `ServerObjects.Commit()` assembles and submits exactly one
batched wire request (`buildCommit`); when the transport call, the
response decoding, or an `"error"` server status makes `sendCommit`
fail, the error is returned and every member is left untouched; only
when the single call succeeds is `confirmChanges()` run on every
member, and the numeric commit id is returned. -/
theorem C7_commit_orchestration (objects : List ServerObject)
    (transport : commitRequest → TransportOutcome) :
    (ServerObjectsCommit objects transport).sentRequests = [buildCommit objects] ∧
    (∀ e, sendCommit (transport (buildCommit objects)) = .error e →
      (ServerObjectsCommit objects transport).result = .error e ∧
      (ServerObjectsCommit objects transport).finalObjects = objects) ∧
    (∀ cid, sendCommit (transport (buildCommit objects)) = .ok cid →
      (ServerObjectsCommit objects transport).result = .ok cid ∧
      (ServerObjectsCommit objects transport).finalObjects =
        objects.map ServerObject.confirmChanges) := by
  refine ⟨?_, ?_, ?_⟩
  · rw [ServerObjectsCommit]
    cases sendCommit (transport (buildCommit objects)) <;> rfl
  · intro e he
    rw [ServerObjectsCommit]
    simp [he]
  · intro cid hc
    rw [ServerObjectsCommit]
    simp [hc]

/-- Concrete changed object for the C7 witness. -/
def c7obj : ServerObject :=
  { attributes := [("object_id", .int 7), ("hostname", .str "new.local")]
    oldValues := [("hostname", .str "old.local")]
    deleted := false }

/-- Witness for C7: a server-side `"error"` status fails the commit
with the server message and leaves the member untouched; a success
response confirms it. -/
theorem C7_witness :
    (ServerObjectsCommit [c7obj] (fun _ => .response "error" 0 "validation failed")).result
        = .error "commit failed: validation failed" ∧
    (ServerObjectsCommit [c7obj] (fun _ => .response "error" 0 "validation failed")).finalObjects
        = [c7obj] ∧
    (ServerObjectsCommit [c7obj] (fun _ => .response "success" 99 "")).result = .ok 99 ∧
    (ServerObjectsCommit [c7obj] (fun _ => .response "success" 99 "")).finalObjects
        = [c7obj.confirmChanges] := by
  have h1 := (C7_commit_orchestration [c7obj]
    (fun _ => .response "error" 0 "validation failed")).2.1
    "commit failed: validation failed" (by decide)
  have h2 := (C7_commit_orchestration [c7obj] (fun _ => .response "success" 99 "")).2.2
    99 (by decide)
  exact ⟨h1.1, h1.2, h2.1, by rw [h2.2]; rfl⟩

/-! ## Claim C9: `One()` cardinality conditions -/

/-- C9: after a successful load, `One()` returns the single object for
exactly one match, the sentinel no-results error for zero matches, and
an error carrying the actual count and wrapping the multiple-results
sentinel for more than one match. -/
theorem C9_one_cardinality (serverObjects : List ServerObject) :
    (∀ obj, serverObjects = [obj] → One serverObjects = .ok obj) ∧
    (serverObjects = [] → One serverObjects = .error .noResults) ∧
    (2 ≤ serverObjects.length →
      One serverObjects = .error (.multipleResults serverObjects.length)) := by
  refine ⟨?_, ?_, ?_⟩
  · intro obj h
    subst h
    rfl
  · intro h
    subst h
    rfl
  · intro h
    match serverObjects, h with
    | a :: b :: t, _ => rfl

/-- Concrete objects for the C9 witness. -/
def c9a : ServerObject :=
  { attributes := [("object_id", .int 1)], oldValues := [], deleted := false }

def c9b : ServerObject :=
  { attributes := [("object_id", .int 2)], oldValues := [], deleted := false }

/-- Witness for C9 at concrete result sets of sizes 1, 0 and 2. -/
theorem C9_witness :
    One [c9a] = .ok c9a ∧
    One ([] : List ServerObject) = .error .noResults ∧
    One [c9a, c9b] = .error (.multipleResults 2) := by
  refine ⟨?_, ?_, ?_⟩
  · exact (C9_one_cardinality [c9a]).1 c9a rfl
  · exact (C9_one_cardinality []).2.1 rfl
  · exact (C9_one_cardinality [c9a, c9b]).2.2 (by decide)

/-! ## Claim C10: `MultiAttr.Add` set semantics -/

theorem MultiAttr.Contains_iff_mem (m : MultiAttr) (e : String) :
    m.Contains e = true ↔ e ∈ m := by
  induction m with
  | nil => simp [MultiAttr.Contains]
  | cons v rest ih =>
    by_cases h : v = e
    · subst h
      simp [MultiAttr.Contains]
    · simp only [MultiAttr.Contains, if_neg h, ih, List.mem_cons]
      constructor
      · exact Or.inr
      · rintro (he | he)
        · exact absurd he.symm h
        · exact he

theorem MultiAttr.Contains_append (m m' : MultiAttr) (e : String) :
    MultiAttr.Contains (m ++ m') e = (m.Contains e || m'.Contains e) := by
  induction m with
  | nil => simp [MultiAttr.Contains]
  | cons v rest ih =>
    by_cases h : v = e <;> simp [MultiAttr.Contains, h, ih]

/-- First-occurrence deduplication: keeps the first occurrence of each
element, in order.  This is the order in which `Add`'s loop appends
fresh elements. -/
def dedupFirst : List String → List String
  | [] => []
  | e :: rest => e :: dedupFirst (rest.filter (fun x => x != e))
termination_by l => l.length
decreasing_by
  simp only [List.length_cons]
  exact Nat.lt_succ_of_le (List.length_filter_le _ _)

theorem mem_dedupFirst (l : List String) (x : String) : x ∈ dedupFirst l ↔ x ∈ l := by
  induction l using dedupFirst.induct with
  | case1 => simp [dedupFirst]
  | case2 e rest ih =>
    rw [dedupFirst]
    simp only [List.mem_cons, ih, List.mem_filter, bne_iff_ne, ne_eq]
    constructor
    · rintro (h | ⟨h, -⟩)
      · exact Or.inl h
      · exact Or.inr h
    · rintro (h | h)
      · exact Or.inl h
      · by_cases hx : x = e
        · exact Or.inl hx
        · exact Or.inr ⟨h, hx⟩

theorem nodup_dedupFirst (l : List String) : (dedupFirst l).Nodup := by
  induction l using dedupFirst.induct with
  | case1 => simp [dedupFirst]
  | case2 e rest ih =>
    rw [dedupFirst]
    refine List.nodup_cons.mpr ⟨?_, ih⟩
    intro hmem
    have hf := (mem_dedupFirst _ _).mp hmem
    simp [List.mem_filter] at hf

theorem dedupFirst_cons (e : String) (rest : List String) :
    dedupFirst (e :: rest) = e :: dedupFirst (rest.filter (fun x => x != e)) := by
  rw [dedupFirst]

theorem Add_eq_append (m : MultiAttr) (es : List String) :
    m.Add es = m ++ dedupFirst (es.filter (fun x => !(m.Contains x))) := by
  induction es generalizing m with
  | nil => simp [MultiAttr.Add, dedupFirst]
  | cons e rest ih =>
    have hstep : m.Add (e :: rest) = (m.addOne e).Add rest := rfl
    by_cases h : m.Contains e = true
    · have haddone : m.addOne e = m := by simp [MultiAttr.addOne, h]
      rw [hstep, haddone, ih]
      congr 1
      rw [List.filter_cons]
      simp [h]
    · have h' : m.Contains e = false := eq_false_of_ne_true h
      have haddone : m.addOne e = m ++ [e] := by simp [MultiAttr.addOne, h']
      have hcont : ∀ x ∈ rest,
          (!(MultiAttr.Contains (m ++ [e]) x)) = ((!(m.Contains x)) && (x != e)) := by
        intro x _
        rw [MultiAttr.Contains_append]
        by_cases hx : x = e
        · subst hx
          simp [MultiAttr.Contains]
        · have hne : e ≠ x := fun hh => hx hh.symm
          have hna : MultiAttr.Contains [e] x = false := by
            simp [MultiAttr.Contains, hne]
          simp [hna, hx]
      have hcomm : ∀ x ∈ rest,
          ((!(m.Contains x)) && (x != e)) = ((x != e) && (!(m.Contains x))) :=
        fun x _ => Bool.and_comm _ _
      rw [hstep, haddone, ih, List.filter_cons]
      simp only [h', Bool.not_false, if_true]
      rw [List.filter_congr hcont, dedupFirst_cons, List.filter_filter,
        List.filter_congr hcomm, List.append_assoc, List.singleton_append]

theorem C10_helper_contains_addOne (m : MultiAttr) (e : String) :
    (m.addOne e).Contains e = true := by
  by_cases h : m.Contains e = true
  · have h1 : m.addOne e = m := by simp [MultiAttr.addOne, h]
    rw [h1]
    exact h
  · have h' : m.Contains e = false := eq_false_of_ne_true h
    have h1 : m.addOne e = m ++ [e] := by simp [MultiAttr.addOne, h']
    rw [h1, MultiAttr.Contains_append]
    simp [MultiAttr.Contains]

/-- C10: `Add` appends exactly the elements not already contained,
keeping the first occurrence of each fresh element in order
(`dedupFirst` of the not-contained filter); it never introduces a
duplicate into a duplicate-free receiver; adding the same element
twice equals adding it once; the added element is contained
afterwards; and membership afterwards is membership before or
membership in the added elements. -/
theorem C10_multiattr_add (m : MultiAttr) (es : List String) (e : String) :
    m.Add es = m ++ dedupFirst (es.filter (fun x => !(m.Contains x))) ∧
    (m.Nodup → (m.Add es).Nodup) ∧
    (m.Add [e]).Add [e] = m.Add [e] ∧
    (m.Add [e]).Contains e = true ∧
    (∀ x, x ∈ m.Add es ↔ (x ∈ m ∨ x ∈ es)) := by
  refine ⟨Add_eq_append m es, ?_, ?_, ?_, ?_⟩
  · intro hnd
    rw [Add_eq_append]
    refine List.Nodup.append hnd (nodup_dedupFirst _) ?_
    intro x hx hx'
    rcases List.mem_filter.mp ((mem_dedupFirst _ _).mp hx') with ⟨-, hpx⟩
    rw [Bool.not_eq_true'] at hpx
    rw [← MultiAttr.Contains_iff_mem m x, hpx] at hx
    cases hx
  · show (m.addOne e).addOne e = m.addOne e
    by_cases h : m.Contains e = true
    · have h1 : m.addOne e = m := by simp [MultiAttr.addOne, h]
      rw [h1]
      exact h1
    · have h' : m.Contains e = false := eq_false_of_ne_true h
      have h1 : m.addOne e = m ++ [e] := by simp [MultiAttr.addOne, h']
      have h2 : MultiAttr.Contains (m ++ [e]) e = true := by
        rw [MultiAttr.Contains_append]
        simp [MultiAttr.Contains]
      rw [h1]
      simp [MultiAttr.addOne, h2]
  · exact C10_helper_contains_addOne m e
  · intro x
    rw [Add_eq_append, List.mem_append, mem_dedupFirst]
    constructor
    · rintro (h | h)
      · exact Or.inl h
      · exact Or.inr (List.mem_filter.mp h).1
    · rintro (h | h)
      · exact Or.inl h
      · by_cases hm : x ∈ m
        · exact Or.inl hm
        · refine Or.inr (List.mem_filter.mpr ⟨h, ?_⟩)
          rw [Bool.not_eq_true', ← Bool.not_eq_true (m.Contains x), MultiAttr.Contains_iff_mem]
          exact hm

/-- Witness for C10 at the concrete example of the `Add` doc comment:
`["web", "prod"].Add("api", "web")` appends only `"api"`. -/
theorem C10_witness :
    MultiAttr.Add ["web", "prod"] ["api", "web"] =
      ["web", "prod"] ++ dedupFirst ((["api", "web"] : List String).filter
        (fun x => !(MultiAttr.Contains ["web", "prod"] x))) ∧
    (MultiAttr.Add ["web", "prod"] ["api", "web"]).Nodup ∧
    (MultiAttr.Add ["web", "prod"] ["api"]).Add ["api"] =
      MultiAttr.Add ["web", "prod"] ["api"] ∧
    (MultiAttr.Add ["web", "prod"] ["api"]).Contains "api" = true ∧
    ("api" ∈ MultiAttr.Add ["web", "prod"] ["api", "web"]) := by
  have h := C10_multiattr_add ["web", "prod"] ["api", "web"] "api"
  exact ⟨h.1, h.2.1 (by decide), (C10_multiattr_add ["web", "prod"] ["api"] "api").2.2.1,
    (C10_multiattr_add ["web", "prod"] ["api"] "api").2.2.2.1,
    (h.2.2.2.2 "api").mpr (Or.inr (by decide))⟩

/-! ## Claim C8: the query-string front end -/

/-- Counterexample to C8 as stated: parsing succeeds, but the parsed
filter set is **not** equal to the manually constructed
`Filters{"hostname": Not(Empty())}` — the parsed zero-argument call
`empty()` carries an empty list operand where the constructor
`Empty()` carries null, exactly as the repository's own
`TestFromQuery` (`Empty: []interface{}{}`) versus `TestFilters`
(`Empty: interface{}(nil)`) pin down. -/
theorem C8_counterexample :
    (FromQuery "hostname=not(empty())").2 = none ∧
    (FromQuery "hostname=not(empty())").1.filters ≠ [("hostname", NotEmpty)] := by
  decide

/-- C8 (amended): `FromQuery "hostname=not(empty())"` succeeds with the
filter set `{hostname: {Not: {Empty: []}}}` — differing from the
manual `Not(Empty())` = `{Not: {Empty: null}}` precisely in the
`Empty` operand; and `FromQuery "a=not(empty("` fails with an error
mentioning "unmatched" (the message ends in `unmatched ( found`)
while returning the zero-value `Query`, never a partial one. -/
theorem C8_fromQuery_roundtrip :
    (FromQuery "hostname=not(empty())").1 =
      NewQuery [("hostname",
        FilterVal.filter "Not" (FilterVal.filter "Empty" (FilterVal.listv [])))] ∧
    (FromQuery "hostname=not(empty())").2 = none ∧
    NotEmpty = FilterVal.filter "Not" (FilterVal.filter "Empty" FilterVal.nullv) ∧
    (FromQuery "a=not(empty(").1 = Query.zero ∧
    (FromQuery "a=not(empty(").2 =
      some "parsing query a=not(empty(: unmatched ( found" := by
  decide

end adminapi
